import Mathlib

/-!
Verification of the `workflow-dispatcher` CLI.

The development shallowly embeds the JavaScript source (`src/index.js` and its
variants) in Lean:

* JavaScript strings are Lean `String`s / `List Char`s, and the string methods
  used by the code (`trim`, `toLowerCase`, `includes`, `split`, `indexOf`,
  `parseInt`) are embedded as executable Lean functions below;
* the mutable `Set` of selected display strings is embedded as an
  insertion-ordered duplicate-free `List String` with `add`/`delete`/`has`;
* the interactive multi-select loop of `selectWithEnquirerMulti` is embedded as
  a small-step state machine driven by a script of operator events (one event
  per prompt the loop awaits);
* external processes (fzf, gh) are embedded by their observable interface: the
  text fzf writes to stdout, and an oracle giving each `gh workflow run`
  invocation's exit status.
-/

namespace WorkflowDispatcher

/-! ## JS string primitives -/

/-- Whitespace as used by `String.prototype.trim` (restricted to the ASCII
whitespace characters that can actually occur in the prompt inputs). -/
def isWsJs (c : Char) : Bool :=
  c == ' ' || c == '\t' || c == '\n' || c == '\r'

/-- `String.prototype.trim` on character lists. -/
def jsTrimL (l : List Char) : List Char :=
  ((l.dropWhile isWsJs).reverse.dropWhile isWsJs).reverse

/-- `String.prototype.trim`. -/
def jsTrim (s : String) : String :=
  ⟨jsTrimL s.data⟩

/-- `String.prototype.toLowerCase` (character-wise, as the item strings contain
no locale-dependent characters). -/
def jsToLower (s : String) : String :=
  ⟨s.data.map Char.toLower⟩

/-- `pat` is a prefix of `l`. -/
def listHasPre : List Char → List Char → Bool
  | [], _ => true
  | _ :: _, [] => false
  | a :: as, b :: bs => a == b && listHasPre as bs

/-- `pat` occurs contiguously inside `l` (JS `String.prototype.includes`). -/
def listHasSub (pat : List Char) : List Char → Bool
  | [] => pat.isEmpty
  | c :: rest => listHasPre pat (c :: rest) || listHasSub pat rest

/-- `s.includes(sub)`. -/
def jsIncludes (s sub : String) : Bool :=
  listHasSub sub.data s.data

/-- `String.prototype.split` with a separator, written with explicit fuel so
that it reduces in the kernel; `splitOnL` supplies enough fuel.  Matches the
JS behaviour for a non-empty separator: split at each leftmost non-overlapping
occurrence. -/
def splitFuel (sep : List Char) : Nat → List Char → List (List Char)
  | _, [] => [[]]
  | 0, s => [s]
  | fuel + 1, c :: rest =>
    if sep.isEmpty = false ∧ listHasPre sep (c :: rest) = true then
      [] :: splitFuel sep fuel ((c :: rest).drop sep.length)
    else
      match splitFuel sep fuel rest with
      | [] => [[c]]
      | h :: t => (c :: h) :: t

/-- `s.split(sep)` on character lists (non-empty `sep`). -/
def splitOnL (sep s : List Char) : List (List Char) :=
  splitFuel sep (s.length + 1) s

/-- Leading decimal digits of `l`. -/
def digitsPre (l : List Char) : List Char :=
  l.takeWhile Char.isDigit

/-- Decimal value of a digit list. -/
def digitsToNat (l : List Char) : Nat :=
  l.foldl (fun acc c => acc * 10 + (c.toNat - '0'.toNat)) 0

/-- `parseInt(s, 10)`: skip leading whitespace, optional sign, then leading
digits; `none` models the JS `NaN` result (no digits).  `NaN` fails every
numeric comparison, which is how `none` is treated at each use site. -/
def parseIntJs (l : List Char) : Option Int :=
  let t := l.dropWhile isWsJs
  match t with
  | '-' :: r => if (digitsPre r).isEmpty then none else some (-(digitsToNat (digitsPre r) : Int))
  | '+' :: r => if (digitsPre r).isEmpty then none else some ((digitsToNat (digitsPre r) : Int))
  | _ => if (digitsPre t).isEmpty then none else some ((digitsToNat (digitsPre t) : Int))

/-- `items.indexOf(v)`: index of the first occurrence, `-1` if absent. -/
def jsIndexOf (items : List String) (v : String) : Int :=
  match items with
  | [] => -1
  | x :: rest =>
    if x = v then 0
    else
      let r := jsIndexOf rest v
      if r < 0 then -1 else r + 1

/-! ## JS `Set` of strings (insertion-ordered, duplicate-free list) -/

/-- `set.add(v)` (insertion order preserved, no duplicates). -/
def jsSetAdd (s : List String) (v : String) : List String :=
  if v ∈ s then s else s ++ [v]

/-- `set.delete(v)`. -/
def jsSetDelete (s : List String) (v : String) : List String :=
  s.filter (fun x => decide (x ≠ v))

/-! ## The multi-select loop of `selectWithEnquirerMulti` -/

/-- One `{it, idx}` record of the code's `visible` array. -/
structure VisItem where
  it : String
  idx : Nat
deriving DecidableEq, Repr

/-- `items.map((it, idx) => ({it, idx}))`, with a starting index. -/
def enumItemsFrom : List String → Nat → List VisItem
  | [], _ => []
  | a :: rest, i => VisItem.mk a i :: enumItemsFrom rest (i + 1)

/-- `items.map((it, idx) => ({it, idx}))`. -/
def enumItems (items : List String) : List VisItem :=
  enumItemsFrom items 0

/-- The visibility computation of the loop:
`q = filter.toLowerCase(); visible = q === "" ? all pairs :
 pairs whose it.toLowerCase().includes(q)`. -/
def visibleItems (items : List String) (filter : String) : List VisItem :=
  let q := jsToLower filter
  if q = "" then enumItems items
  else (enumItems items).filter (fun v => jsIncludes (jsToLower v.it) q)

/-- The spec-side description of the visible subset (for the refinement claim
C6): all `(item, originalIndex)` pairs, in original order, whose display
string contains the filter query as a case-insensitive substring. -/
def visibleSpec (items : List String) (filter : String) : List VisItem :=
  (enumItems items).filter (fun v => jsIncludes (jsToLower v.it) (jsToLower filter))

/-- A display string matches the active filter:
`it.toLowerCase().includes(filter.toLowerCase())`. -/
def matchesFilter (filter x : String) : Bool :=
  jsIncludes (jsToLower x) (jsToLower filter)

/-- The selection-state update performed after one pick round
(`if (result.includes("__TOGGLE__")) { ... } else { ... }`). -/
def updateSelectedSet (sel : List String) (vis : List VisItem) (result : List String) :
    List String :=
  if "__TOGGLE__" ∈ result then
    let rest := result.filter (fun v => decide (v ≠ "__TOGGLE__"))
    if rest = [] then
      if ∀ v ∈ vis, v.it ∈ sel then
        vis.foldl (fun s v => jsSetDelete s v.it) sel
      else
        vis.foldl (fun s v => jsSetAdd s v.it) sel
    else
      rest.foldl jsSetAdd (vis.foldl (fun s v => jsSetDelete s v.it) sel)
  else
    result.foldl jsSetAdd (vis.foldl (fun s v => jsSetDelete s v.it) sel)

/-- `:done`: `Array.from(selectedSet).map((v) => items.indexOf(v)).filter((i) => i >= 0)`. -/
def doneIndices (items sel : List String) : List Int :=
  (sel.map (fun v => jsIndexOf items v)).filter (fun i => decide (0 ≤ i))

/-- One prompt choice (`{name, selected}`); the visual `Separator` entry of the
source carries no state and is omitted.  The toggle entry has no `selected`
field in the source (JS `undefined`), modelled as `false`. -/
structure Choice where
  cname : String
  selected : Bool
deriving DecidableEq, Repr

/-- The `choices` array built for one pick round: the toggle entry followed by
the visible items, each pre-checked iff it is in `selectedSet`. -/
def mkChoices (vis : List VisItem) (sel : List String) : List Choice :=
  Choice.mk "__TOGGLE__" false :: vis.map (fun v => Choice.mk v.it (decide (v.it ∈ sel)))

/-- One operator event: an answer to the filter prompt, an abort (Ctrl+C) at
the filter prompt, a submission of the multi-select prompt, or an abort at the
multi-select prompt. -/
inductive Ev where
  | filt (s : String)
  | fabort
  | pick (vals : List String)
  | pabort
deriving DecidableEq, Repr

/-- Which prompt the loop is waiting at. -/
inductive Mode where
  | atFilter
  | atPick (vis : List VisItem)
deriving DecidableEq, Repr

/-- Loop state.  `finished res s` is a returned loop: `res` is the returned
index list, and `s` records the selection state at the moment `:done` was
entered (`none` when the loop returned via an abort) — ghost data used only by
the specification.  `stuck` marks an ill-formed script (an event for the wrong
prompt), which cannot arise in a real session. -/
inductive St where
  | running (mode : Mode) (sel : List String)
  | finished (res : List Int) (selAtDone : Option (List String))
  | stuck
deriving DecidableEq, Repr

/-- One iteration step of the `while (true)` loop of `selectWithEnquirerMulti`,
consuming one operator event. -/
def multiStep (items : List String) : St → Ev → St
  | St.finished res s, _ => St.finished res s
  | St.stuck, _ => St.stuck
  | St.running Mode.atFilter _, Ev.fabort => St.finished [] none
  | St.running Mode.atFilter sel, Ev.filt s =>
    let filter := jsTrim s
    if filter = ":done" then St.finished (doneIndices items sel) (some sel)
    else if filter = ":reset" then St.running Mode.atFilter []
    else
      let vis := visibleItems items filter
      if vis = [] then St.running Mode.atFilter sel
      else St.running (Mode.atPick vis) sel
  | St.running Mode.atFilter _, _ => St.stuck
  | St.running (Mode.atPick vis) sel, Ev.pick r =>
    St.running Mode.atFilter (updateSelectedSet sel vis r)
  | St.running (Mode.atPick _) _, Ev.pabort => St.finished [] none
  | St.running (Mode.atPick _) _, _ => St.stuck

/-- Initial loop state: `selectedSet` empty, waiting at the filter prompt. -/
def initSt : St :=
  St.running Mode.atFilter []

/-- Run the loop on a script of operator events. -/
def runScript (items : List String) (script : List Ev) : St :=
  script.foldl (multiStep items) initSt

/-- `selectWithEnquirerMulti`: the returned index list, when the script makes
the loop return. -/
def selectWithEnquirerMulti (items : List String) (script : List Ev) : Option (List Int) :=
  match runScript items script with
  | St.finished res _ => some res
  | _ => none

/-- The prompt-library contract for one submission: every submitted value is a
presented choice, i.e. the toggle entry or a visible item. -/
def pickValid (vis : List VisItem) (r : List String) : Bool :=
  r.all (fun v => decide (v = "__TOGGLE__" ∨ v ∈ vis.map VisItem.it))

/-- `evOk` holds of an event when it respects the prompt-library contract in
the current state (only pick submissions are constrained). -/
def evOk (st : St) (e : Ev) : Bool :=
  match st, e with
  | St.running (Mode.atPick vis) _, Ev.pick r => pickValid vis r
  | _, _ => true

/-- A script is valid from a state when every event respects the
prompt-library contract at the state where it is consumed. -/
def scriptValidFrom (items : List String) : St → List Ev → Bool
  | _, [] => true
  | st, e :: rest => evOk st e && scriptValidFrom items (multiStep items st e) rest

/-- Validity of a full-session script. -/
def scriptValid (items : List String) (script : List Ev) : Bool :=
  scriptValidFrom items initSt script

/-! ## The fzf selector's output resolution (`selectWithFzf`) -/

/-- The `close` handler of `selectWithFzf`: if the subprocess produced no
output, resolve `[]`; otherwise split the trimmed output into lines, parse
each line's leading tab-separated token with `parseInt`, subtract one
(one-based to zero-based), and keep only in-range indices.  A `NaN` (`none`)
entry fails the `i >= 0` test and is dropped. -/
def fzfResolve (items : List String) (out : String) : List Int :=
  if jsTrim out = "" then []
  else
    ((splitOnL ['\n'] (jsTrim out).data).map
        (fun line => (parseIntJs ((splitOnL ['\t'] line).headD [])).map (fun n => n - 1))).filterMap
      (fun oi =>
        match oi with
        | none => none
        | some i => if 0 ≤ i ∧ i < (items.length : Int) then some i else none)

/-! ## `runCLI` -/

/-- `"<name> — <path>"`, the display string built for an active workflow
record. -/
def workflowDisplay (name path : String) : String :=
  name ++ " — " ++ path

/-- The display separator, as a character list. -/
def sepL : List Char :=
  (" — " : String).data

/-- `w.split(" — ")[1]`: the path identifier derived for dispatch; `none`
models the JS `undefined` when the display has no separator. -/
def dispatchPathOf (w : String) : Option String :=
  ((splitOnL sepL w.data).get? 1).map (fun l => String.mk l)

/-- One observable dispatch action: `gh workflow run <path> --ref <ref>` was
invoked, with `ok` its exit status (`false` = the invocation threw and the
failure was reported). -/
inductive DispatchEv where
  | invoked (path : Option String) (ref : String) (ok : Bool)
deriving DecidableEq, Repr

/-- The dispatch loop of `runCLI` step 5: sequentially, for each chosen
display string, derive the path and invoke the CI tool; a failure is caught
and reported and the loop continues with the next item.  `oracle` gives each
invocation's exit status. -/
def dispatchWorkflows (chosen : List String) (ref : String) (oracle : Option String → Bool) :
    List DispatchEv :=
  match chosen with
  | [] => []
  | w :: rest =>
    let path := dispatchPathOf w
    DispatchEv.invoked path ref (oracle path) :: dispatchWorkflows rest ref oracle

/-- JS array indexing `refs[i]` where `i` may be `undefined` (`none`),
negative or out of range: all of those yield `undefined` (`none`). -/
def jsArrGet (l : List String) (oi : Option Int) : Option String :=
  match oi with
  | none => none
  | some i => if 0 ≤ i then l.get? i.toNat else none

/-- Outcome of the ref-selection phase of `runCLI` (`src/index.js`). -/
inductive RefPhaseOut where
  | endedEarly
  | continuedWith (selectedRef : Option String)
deriving DecidableEq, Repr

/-- The ref-selection phase of `runCLI` in `src/index.js`: abort when there
are no refs; otherwise `refIdx = refIdxs === null ? <enquirer index> :
refIdxs[0]` and `selectedRef = refs[refIdx]`, after which the session
continues unconditionally — there is no guard on an empty fzf result. -/
def runCLIRefPhase (refs : List String) (fzfRes : Option (List Int)) (enquirerIdx : Int) :
    RefPhaseOut :=
  if refs = [] then RefPhaseOut.endedEarly
  else
    let refIdx : Option Int :=
      match fzfRes with
      | none => some enquirerIdx
      | some idxs => idxs.get? 0
    RefPhaseOut.continuedWith (jsArrGet refs refIdx)

/-- The selection-state invariant (claim C5): every member of `selectedSet` is
a display string of the original item list; while waiting at the pick prompt,
every visible item is also from the item list. -/
def SelInv (items : List String) : St → Prop := fun st =>
  match st with
  | St.running Mode.atFilter sel => ∀ v ∈ sel, v ∈ items
  | St.running (Mode.atPick vis) sel => (∀ v ∈ sel, v ∈ items) ∧ ∀ v ∈ vis, v.it ∈ items
  | St.finished _ (some selF) => ∀ v ∈ selF, v ∈ items
  | _ => True

/-- A loop that returned via `:done` returned exactly the `:done` resolution of
the selection state it recorded. -/
def GoodSt (items : List String) : St → Prop := fun st =>
  match st with
  | St.finished res (some selF) => res = doneIndices items selF
  | _ => True

/-! ## Helper lemmas: the JS `Set` operations -/

theorem mem_jsSetAdd {s : List String} {v x : String} :
    x ∈ jsSetAdd s v ↔ x ∈ s ∨ x = v := by
  by_cases h : v ∈ s
  · simp only [jsSetAdd, if_pos h]
    constructor
    · exact fun hx => Or.inl hx
    · rintro (hx | rfl)
      · exact hx
      · exact h
  · simp [jsSetAdd, if_neg h]

theorem mem_jsSetDelete {s : List String} {v x : String} :
    x ∈ jsSetDelete s v ↔ x ∈ s ∧ x ≠ v := by
  simp [jsSetDelete, List.mem_filter]

theorem mem_foldl_add (l s : List String) (x : String) :
    x ∈ l.foldl jsSetAdd s ↔ x ∈ s ∨ x ∈ l := by
  induction l generalizing s with
  | nil => simp
  | cons a t ih => simp [ih, mem_jsSetAdd, or_assoc]

theorem mem_foldl_addIt (vis : List VisItem) (s : List String) (x : String) :
    x ∈ vis.foldl (fun acc v => jsSetAdd acc v.it) s ↔ x ∈ s ∨ x ∈ vis.map VisItem.it := by
  induction vis generalizing s with
  | nil => simp
  | cons a t ih => simp [ih, mem_jsSetAdd, or_assoc]

theorem mem_foldl_del (vis : List VisItem) (s : List String) (x : String) :
    x ∈ vis.foldl (fun acc v => jsSetDelete acc v.it) s ↔ x ∈ s ∧ x ∉ vis.map VisItem.it := by
  induction vis generalizing s with
  | nil => simp
  | cons a t ih =>
    simp only [List.foldl_cons, ih, mem_jsSetDelete, List.map_cons, List.mem_cons]
    tauto

/-! ## Helper lemmas: the selection-state update -/

theorem upd_toggle_all {sel : List String} {vis : List VisItem} {r : List String}
    (hT : ("__TOGGLE__" : String) ∈ r)
    (hrest : r.filter (fun v => decide (v ≠ "__TOGGLE__")) = [])
    (hall : ∀ v ∈ vis, v.it ∈ sel) :
    updateSelectedSet sel vis r = vis.foldl (fun acc v => jsSetDelete acc v.it) sel := by
  simp only [updateSelectedSet, if_pos hT, hrest, if_pos rfl, if_pos hall, if_true]

theorem upd_toggle_notall {sel : List String} {vis : List VisItem} {r : List String}
    (hT : ("__TOGGLE__" : String) ∈ r)
    (hrest : r.filter (fun v => decide (v ≠ "__TOGGLE__")) = [])
    (hnall : ¬ ∀ v ∈ vis, v.it ∈ sel) :
    updateSelectedSet sel vis r = vis.foldl (fun acc v => jsSetAdd acc v.it) sel := by
  simp only [updateSelectedSet, if_pos hT, hrest, if_pos rfl, if_neg hnall, if_true]

theorem upd_override {sel : List String} {vis : List VisItem} {r : List String}
    (hT : ("__TOGGLE__" : String) ∈ r)
    (hrest : r.filter (fun v => decide (v ≠ "__TOGGLE__")) ≠ []) :
    updateSelectedSet sel vis r
      = (r.filter (fun v => decide (v ≠ "__TOGGLE__"))).foldl jsSetAdd
          (vis.foldl (fun acc v => jsSetDelete acc v.it) sel) := by
  simp only [updateSelectedSet, if_pos hT, if_neg hrest]

theorem upd_normal {sel : List String} {vis : List VisItem} {r : List String}
    (hT : ("__TOGGLE__" : String) ∉ r) :
    updateSelectedSet sel vis r
      = r.foldl jsSetAdd (vis.foldl (fun acc v => jsSetDelete acc v.it) sel) := by
  simp only [updateSelectedSet, if_neg hT]

/-! ## Helper lemmas: visibility -/

theorem listHasSub_nil (l : List Char) : listHasSub [] l = true := by
  cases l <;> simp [listHasSub, listHasPre, List.isEmpty]

theorem it_mem_of_mem_enumFrom {l : List String} {i : Nat} {v : VisItem}
    (h : v ∈ enumItemsFrom l i) : v.it ∈ l := by
  induction l generalizing i with
  | nil => simp [enumItemsFrom] at h
  | cons a t ih =>
    simp only [enumItemsFrom, List.mem_cons] at h
    rcases h with rfl | h
    · exact List.mem_cons_self _ _
    · exact List.mem_cons_of_mem _ (ih h)

theorem it_mem_of_mem_visible {items : List String} {f : String} {v : VisItem}
    (h : v ∈ visibleItems items f) : v.it ∈ items := by
  unfold visibleItems at h
  by_cases hq : jsToLower f = ""
  · rw [if_pos hq] at h
    exact it_mem_of_mem_enumFrom h
  · rw [if_neg hq] at h
    exact it_mem_of_mem_enumFrom (List.mem_of_mem_filter h)

theorem not_visible_of_not_matches {items : List String} {f x : String}
    (h : matchesFilter f x = false) : x ∉ (visibleItems items f).map VisItem.it := by
  intro hx
  rcases List.mem_map.mp hx with ⟨v, hv, hvx⟩
  have hmatch : matchesFilter f v.it = true := by
    unfold visibleItems at hv
    by_cases hq : jsToLower f = ""
    · unfold matchesFilter jsIncludes
      rw [hq]
      exact listHasSub_nil _
    · rw [if_neg hq] at hv
      exact (List.mem_filter.mp hv).2
  rw [hvx] at hmatch
  rw [h] at hmatch
  exact Bool.false_ne_true hmatch

theorem pickValid_iff {vis : List VisItem} {r : List String} :
    pickValid vis r = true ↔ ∀ v ∈ r, v = "__TOGGLE__" ∨ v ∈ vis.map VisItem.it := by
  simp [pickValid, List.all_eq_true]

/-! ## Helper lemmas: `split` -/

theorem sepL_eq : sepL = [' ', '—', ' '] := rfl

theorem hasPre_append_self (p b : List Char) : listHasPre p (p ++ b) = true := by
  induction p with
  | nil => rfl
  | cons c t ih => simp [listHasPre, ih]

theorem hasPre_of_append {p a b : List Char} (hlen : p.length ≤ a.length)
    (h : listHasPre p (a ++ b) = true) : listHasPre p a = true := by
  induction p generalizing a with
  | nil => rfl
  | cons c t ih =>
    cases a with
    | nil => simp at hlen
    | cons d u =>
      simp only [List.cons_append, listHasPre, Bool.and_eq_true] at h ⊢
      refine ⟨h.1, ih ?_ h.2⟩
      simp only [List.length_cons] at hlen
      omega

theorem hasSub_of_hasPre {p s : List Char} (h : listHasPre p s = true) :
    listHasSub p s = true := by
  cases s with
  | nil =>
    cases p with
    | nil => rfl
    | cons c t => simp [listHasPre] at h
  | cons c t => simp [listHasSub, h]

theorem splitFuel_no_sub {sep : List Char} :
    ∀ (s : List Char) (fuel : Nat), listHasSub sep s = false → s.length < fuel →
      splitFuel sep fuel s = [s] := by
  intro s
  induction s with
  | nil =>
    intro fuel _ _
    cases fuel <;> rfl
  | cons c t ih =>
    intro fuel hsub hlen
    cases fuel with
    | zero => exact absurd hlen (Nat.not_lt_zero _)
    | succ f =>
      simp only [listHasSub, Bool.or_eq_false_iff] at hsub
      simp only [splitFuel]
      rw [if_neg (fun hcon => by rw [hsub.1] at hcon; exact Bool.false_ne_true hcon.2)]
      have hlt : t.length < f := by
        simp only [List.length_cons] at hlen
        omega
      rw [ih f hsub.2 hlt]

theorem splitFuel_display :
    ∀ (n p : List Char) (fuel : Nat),
      listHasSub sepL (n ++ [' ', '—']) = false →
      listHasSub sepL p = false →
      (n ++ sepL ++ p).length < fuel →
      splitFuel sepL fuel (n ++ sepL ++ p) = [n, p] := by
  intro n
  induction n with
  | nil =>
    intro p fuel h1 h2 hlen
    cases fuel with
    | zero => exact absurd hlen (Nat.not_lt_zero _)
    | succ f =>
      have hpre : listHasPre sepL (' ' :: ('—' :: ' ' :: p)) = true :=
        hasPre_append_self sepL p
      show splitFuel sepL (f + 1) (' ' :: ('—' :: ' ' :: p)) = [[], p]
      simp only [splitFuel]
      rw [if_pos ⟨rfl, hpre⟩]
      have hplen : p.length < f := by
        simp only [List.nil_append, List.length_append, sepL_eq, List.length_cons,
          List.length_nil] at hlen
        omega
      show [] :: splitFuel sepL f p = [[], p]
      rw [splitFuel_no_sub p f h2 hplen]
  | cons c n1 ih =>
    intro p fuel h1 h2 hlen
    cases fuel with
    | zero => exact absurd hlen (Nat.not_lt_zero _)
    | succ f =>
      have hguard : listHasPre sepL (c :: (n1 ++ sepL ++ p)) = false := by
        by_contra hcon
        rw [Bool.not_eq_false] at hcon
        have hassoc : c :: (n1 ++ sepL ++ p) = ((c :: n1) ++ [' ', '—']) ++ (' ' :: p) := by
          simp [sepL_eq]
        rw [hassoc] at hcon
        have hlen2 : sepL.length ≤ ((c :: n1) ++ [' ', '—']).length := by
          simp [sepL_eq]
        have hs := hasSub_of_hasPre (hasPre_of_append hlen2 hcon)
        rw [h1] at hs
        exact Bool.false_ne_true hs
      show splitFuel sepL (f + 1) (c :: (n1 ++ sepL ++ p)) = [c :: n1, p]
      simp only [splitFuel]
      rw [if_neg (fun hcon => Bool.false_ne_true (hguard ▸ hcon.2))]
      have hn1 : listHasSub sepL (n1 ++ [' ', '—']) = false := by
        have h1b := h1
        simp only [List.cons_append, listHasSub, Bool.or_eq_false_iff] at h1b
        exact h1b.2
      have hlen3 : (n1 ++ sepL ++ p).length < f := by
        simp only [List.cons_append, List.length_cons] at hlen
        omega
      rw [ih p f hn1 h2 hlen3]

theorem splitOnL_display (n p : List Char)
    (h1 : listHasSub sepL (n ++ [' ', '—']) = false)
    (h2 : listHasSub sepL p = false) :
    splitOnL sepL (n ++ sepL ++ p) = [n, p] :=
  splitFuel_display n p _ h1 h2 (Nat.lt_succ_self _)

/-! ## Helper lemmas: `indexOf` and the `:done` result -/

theorem jsIndexOf_not_mem {items : List String} {v : String} (h : v ∉ items) :
    jsIndexOf items v = -1 := by
  induction items with
  | nil => rfl
  | cons x t ih =>
    have hx : ¬ x = v := fun hc => h (by rw [hc]; exact List.mem_cons_self _ _)
    simp only [jsIndexOf, if_neg hx]
    rw [ih (fun hc => h (List.mem_cons_of_mem _ hc))]
    decide

theorem jsIndexOf_nonneg {items : List String} {v : String} (h : v ∈ items) :
    0 ≤ jsIndexOf items v := by
  induction items with
  | nil => exact absurd h (List.not_mem_nil v)
  | cons x t ih =>
    by_cases hx : x = v
    · simp [jsIndexOf, if_pos hx]
    · simp only [jsIndexOf, if_neg hx]
      have hv : v ∈ t := by
        rcases List.mem_cons.mp h with h1 | h1
        · exact absurd h1.symm hx
        · exact h1
      have h0 := ih hv
      rw [if_neg (by omega)]
      omega

theorem jsIndexOf_mem {items : List String} {v : String} (h : v ∈ items) :
    ∃ i : Nat, jsIndexOf items v = (i : Int) ∧ items.get? i = some v := by
  induction items with
  | nil => exact absurd h (List.not_mem_nil v)
  | cons x t ih =>
    by_cases hx : x = v
    · exact ⟨0, by simp [jsIndexOf, if_pos hx], by simp [hx]⟩
    · have hv : v ∈ t := by
        rcases List.mem_cons.mp h with h1 | h1
        · exact absurd h1.symm hx
        · exact h1
      rcases ih hv with ⟨i, hi, hget⟩
      refine ⟨i + 1, ?_, by simpa using hget⟩
      simp only [jsIndexOf, if_neg hx]
      rw [hi]
      rw [if_neg (by omega)]
      push_cast
      ring

theorem jsIndexOf_nodup {items : List String} (hnd : items.Nodup) :
    ∀ {i : Nat} {v : String}, items.get? i = some v → jsIndexOf items v = (i : Int) := by
  induction items with
  | nil => intro i v h; simp at h
  | cons x t ih =>
    intro i v h
    rcases List.nodup_cons.mp hnd with ⟨hx, hnd2⟩
    cases i with
    | zero =>
      simp only [List.get?_cons_zero] at h
      injection h with h
      simp [jsIndexOf, if_pos h]
    | succ j =>
      simp only [List.get?_cons_succ] at h
      have hvt : v ∈ t := List.get?_mem h
      have hxv : ¬ x = v := fun hcon => hx (hcon ▸ hvt)
      simp only [jsIndexOf, if_neg hxv]
      rw [ih hnd2 h]
      rw [if_neg (by omega)]
      push_cast
      ring

theorem doneIndices_eq_map {items sel : List String} (h : ∀ v ∈ sel, v ∈ items) :
    doneIndices items sel = sel.map (fun v => jsIndexOf items v) := by
  unfold doneIndices
  rw [List.filter_eq_self]
  intro i hi
  rcases List.mem_map.mp hi with ⟨v, hv, rfl⟩
  exact decide_eq_true (jsIndexOf_nonneg (h v hv))

theorem mem_doneIndices_iff {items sel : List String} (hnd : items.Nodup) (i : Nat) :
    (i : Int) ∈ doneIndices items sel ↔ ∃ h : i < items.length, items.get ⟨i, h⟩ ∈ sel := by
  unfold doneIndices
  rw [List.mem_filter]
  constructor
  · rintro ⟨hmap, _⟩
    rcases List.mem_map.mp hmap with ⟨v, hv, hidx⟩
    have hvm : v ∈ items := by
      by_contra hcon
      rw [jsIndexOf_not_mem hcon] at hidx
      omega
    rcases jsIndexOf_mem hvm with ⟨j, hj, hget⟩
    have hij : i = j := by
      rw [hj] at hidx
      exact_mod_cast hidx.symm
    subst hij
    rcases List.get?_eq_some.mp hget with ⟨hlt, hgeteq⟩
    exact ⟨hlt, hgeteq ▸ hv⟩
  · rintro ⟨h, hmem⟩
    have hget : items.get? i = some (items.get ⟨i, h⟩) := List.get?_eq_get h
    have hidx := jsIndexOf_nodup hnd hget
    refine ⟨List.mem_map.mpr ⟨items.get ⟨i, h⟩, hmem, hidx⟩, ?_⟩
    simp

/-! ## Helper lemmas: the loop invariants -/

theorem upd_mem_items {items sel : List String} {vis : List VisItem} {r : List String}
    (hsel : ∀ v ∈ sel, v ∈ items) (hvis : ∀ v ∈ vis, v.it ∈ items)
    (hvalid : pickValid vis r = true) :
    ∀ x ∈ updateSelectedSet sel vis r, x ∈ items := by
  intro x hx
  have hmapvis : ∀ y ∈ vis.map VisItem.it, y ∈ items := by
    intro y hy
    rcases List.mem_map.mp hy with ⟨v, hv, rfl⟩
    exact hvis v hv
  by_cases hT : ("__TOGGLE__" : String) ∈ r
  · by_cases hrest : r.filter (fun v => decide (v ≠ "__TOGGLE__")) = []
    · by_cases hall : ∀ v ∈ vis, v.it ∈ sel
      · rw [upd_toggle_all hT hrest hall, mem_foldl_del] at hx
        exact hsel x hx.1
      · rw [upd_toggle_notall hT hrest hall, mem_foldl_addIt] at hx
        rcases hx with hx | hx
        · exact hsel x hx
        · exact hmapvis x hx
    · rw [upd_override hT hrest, mem_foldl_add, mem_foldl_del] at hx
      rcases hx with hx | hx
      · exact hsel x hx.1
      · rcases List.mem_filter.mp hx with ⟨hr, hne⟩
        rcases pickValid_iff.mp hvalid x hr with h1 | h1
        · exact absurd h1 (of_decide_eq_true hne)
        · exact hmapvis x h1
  · rw [upd_normal hT, mem_foldl_add, mem_foldl_del] at hx
    rcases hx with hx | hx
    · exact hsel x hx.1
    · rcases pickValid_iff.mp hvalid x hx with h1 | h1
      · exact absurd (h1 ▸ hx) hT
      · exact hmapvis x h1

theorem selInv_step (items : List String) (st : St) (e : Ev)
    (h : SelInv items st) (hok : evOk st e = true) : SelInv items (multiStep items st e) := by
  match st, e with
  | St.finished res s, _ => exact h
  | St.stuck, _ => trivial
  | St.running Mode.atFilter sel, Ev.fabort => trivial
  | St.running Mode.atFilter sel, Ev.pick r => trivial
  | St.running Mode.atFilter sel, Ev.pabort => trivial
  | St.running Mode.atFilter sel, Ev.filt s =>
    simp only [multiStep]
    by_cases hd : jsTrim s = ":done"
    · rw [if_pos hd]
      exact h
    · rw [if_neg hd]
      by_cases hr : jsTrim s = ":reset"
      · rw [if_pos hr]
        intro v hv
        exact absurd hv (List.not_mem_nil v)
      · rw [if_neg hr]
        by_cases hv : visibleItems items (jsTrim s) = []
        · rw [if_pos hv]
          exact h
        · rw [if_neg hv]
          exact ⟨h, fun v hv2 => it_mem_of_mem_visible hv2⟩
  | St.running (Mode.atPick vis) sel, Ev.fabort => trivial
  | St.running (Mode.atPick vis) sel, Ev.filt s => trivial
  | St.running (Mode.atPick vis) sel, Ev.pabort => trivial
  | St.running (Mode.atPick vis) sel, Ev.pick r =>
    exact upd_mem_items h.1 h.2 hok

theorem selInv_run (items : List String) :
    ∀ (script : List Ev) (st : St), scriptValidFrom items st script = true →
      SelInv items st → SelInv items (script.foldl (multiStep items) st) := by
  intro script
  induction script with
  | nil =>
    intro st _ h
    exact h
  | cons e rest ih =>
    intro st hv h
    simp only [scriptValidFrom, Bool.and_eq_true] at hv
    exact ih _ hv.2 (selInv_step items st e h hv.1)

theorem goodSt_step (items : List String) (st : St) (e : Ev)
    (h : GoodSt items st) : GoodSt items (multiStep items st e) := by
  match st, e with
  | St.finished res s, _ => exact h
  | St.stuck, _ => trivial
  | St.running Mode.atFilter sel, Ev.fabort => trivial
  | St.running Mode.atFilter sel, Ev.pick r => trivial
  | St.running Mode.atFilter sel, Ev.pabort => trivial
  | St.running Mode.atFilter sel, Ev.filt s =>
    simp only [multiStep]
    by_cases hd : jsTrim s = ":done"
    · rw [if_pos hd]
      exact rfl
    · rw [if_neg hd]
      by_cases hr : jsTrim s = ":reset"
      · rw [if_pos hr]
        trivial
      · rw [if_neg hr]
        by_cases hv : visibleItems items (jsTrim s) = []
        · rw [if_pos hv]
          trivial
        · rw [if_neg hv]
          trivial
  | St.running (Mode.atPick vis) sel, Ev.pick r => trivial
  | St.running (Mode.atPick vis) sel, Ev.pabort => trivial
  | St.running (Mode.atPick vis) sel, Ev.filt s => trivial
  | St.running (Mode.atPick vis) sel, Ev.fabort => trivial

theorem goodSt_run (items : List String) :
    ∀ (script : List Ev) (st : St), GoodSt items st →
      GoodSt items (script.foldl (multiStep items) st) := by
  intro script
  induction script with
  | nil =>
    intro st h
    exact h
  | cons e rest ih =>
    intro st h
    exact ih _ (goodSt_step items st e h)

/-! ## Claim theorems -/

/-- C1 (amended): for every non-empty item list with pairwise-distinct display
strings and every event script that the loop finishes via `:done`,
`selectWithEnquirerMulti` returns exactly the indices whose display strings are
members of the selection state at the moment `:done` is entered, and no
others.  (The original claim, without the distinctness hypothesis, fails on
item lists with duplicates: see the counterexample.) -/
theorem c1_done_result_characterization (items : List String) (script : List Ev)
    (res : List Int) (selF : List String)
    (hne : items ≠ []) (hnd : items.Nodup)
    (hrun : runScript items script = St.finished res (some selF)) :
    selectWithEnquirerMulti items script = some res
    ∧ ∀ i : Nat, ((i : Int) ∈ res ↔ ∃ h : i < items.length, items.get ⟨i, h⟩ ∈ selF) := by
  have hgood : GoodSt items (runScript items script) :=
    goodSt_run items script initSt trivial
  rw [hrun] at hgood
  have hg2 : res = doneIndices items selF := hgood
  constructor
  · unfold selectWithEnquirerMulti
    rw [hrun]
  · intro i
    rw [hg2]
    exact mem_doneIndices_iff hnd i

/-- C1 counterexample: with the duplicate item list `["a", "a"]`, a session
that selects `"a"` under the empty filter and then enters `:done` ends with
selection state `["a"]` and returns only index `0`, although index `1`'s
display string is also a member of the selection state. -/
theorem c1_cex :
    runScript ["a", "a"] [Ev.filt "", Ev.pick ["a"], Ev.filt ":done"]
      = St.finished [(0 : Int)] (some ["a"])
    ∧ (["a", "a"] : List String).get? 1 = some "a"
    ∧ ("a" : String) ∈ (["a"] : List String)
    ∧ (1 : Int) ∉ ([(0 : Int)] : List Int) := by
  exact ⟨by decide, by decide, by decide, by decide⟩

/-- C1 witness: a concrete two-item session selecting `"a"` and finishing with
`:done`. -/
theorem c1_w :
    (0 : Int) ∈ ([(0 : Int)] : List Int)
      ↔ ∃ h : 0 < (["a", "b"] : List String).length,
          (["a", "b"] : List String).get ⟨0, h⟩ ∈ (["a"] : List String) :=
  (c1_done_result_characterization ["a", "b"] [Ev.filt "", Ev.pick ["a"], Ev.filt ":done"]
    [0] ["a"] (by decide) (by decide) (by decide)).2 0

/-- C2 (amended): a toggle-only submission inverts the visible subset's
membership as a block — if every visible item is in the selection state, all
visible items are removed, otherwise all are added; performed twice in a row
over the same non-empty visible subset it restores the prior selection state
for that visible set **provided the prior state was uniform on the visible
subset** (all visible items selected, or none of them).  (The original claim's
unconditional double-toggle clause fails for a mixed prior state: see the
counterexample.) -/
theorem c2_toggle_block_inversion (sel : List String) (vis : List VisItem) (r : List String)
    (hT : ("__TOGGLE__" : String) ∈ r)
    (hrest : r.filter (fun v => decide (v ≠ "__TOGGLE__")) = [])
    (hne : vis ≠ []) :
    ((∀ v ∈ vis, v.it ∈ sel) →
      ∀ x, x ∈ updateSelectedSet sel vis r ↔ x ∈ sel ∧ x ∉ vis.map VisItem.it)
    ∧ ((¬ ∀ v ∈ vis, v.it ∈ sel) →
      ∀ x, x ∈ updateSelectedSet sel vis r ↔ x ∈ sel ∨ x ∈ vis.map VisItem.it)
    ∧ (((∀ v ∈ vis, v.it ∈ sel) ∨ (∀ v ∈ vis, v.it ∉ sel)) →
      ∀ v ∈ vis,
        (v.it ∈ updateSelectedSet (updateSelectedSet sel vis r) vis r ↔ v.it ∈ sel)) := by
  refine ⟨?_, ?_, ?_⟩
  · intro hall x
    rw [upd_toggle_all hT hrest hall, mem_foldl_del]
  · intro hnall x
    rw [upd_toggle_notall hT hrest hnall, mem_foldl_addIt]
  · rintro (hall | hnone) v hv
    · rw [upd_toggle_all hT hrest hall]
      have hnall2 : ¬ ∀ w ∈ vis, w.it ∈ vis.foldl (fun acc u => jsSetDelete acc u.it) sel := by
        intro hcontra
        obtain ⟨w, hw⟩ := List.exists_mem_of_ne_nil vis hne
        have hwmem := hcontra w hw
        rw [mem_foldl_del] at hwmem
        exact hwmem.2 (List.mem_map.mpr ⟨w, hw, rfl⟩)
      rw [upd_toggle_notall hT hrest hnall2, mem_foldl_addIt]
      constructor
      · intro _
        exact hall v hv
      · intro _
        exact Or.inr (List.mem_map.mpr ⟨v, hv, rfl⟩)
    · have hnall1 : ¬ ∀ w ∈ vis, w.it ∈ sel := by
        intro hcontra
        obtain ⟨w, hw⟩ := List.exists_mem_of_ne_nil vis hne
        exact hnone w hw (hcontra w hw)
      rw [upd_toggle_notall hT hrest hnall1]
      have hall2 : ∀ w ∈ vis, w.it ∈ vis.foldl (fun acc u => jsSetAdd acc u.it) sel := by
        intro w hw
        rw [mem_foldl_addIt]
        exact Or.inr (List.mem_map.mpr ⟨w, hw, rfl⟩)
      rw [upd_toggle_all hT hrest hall2, mem_foldl_del]
      constructor
      · intro h
        exact absurd (List.mem_map.mpr ⟨v, hv, rfl⟩) h.2
      · intro h
        exact absurd h (hnone v hv)

/-- C2 counterexample: with the mixed prior state `{"a"}` over the visible
subset `{a, b}`, a double toggle-only submission ends with `"a"` deselected —
the prior selection state for that visible set is not restored. -/
theorem c2_cex :
    ("a" : String) ∈ (["a"] : List String)
    ∧ "a" ∉ updateSelectedSet
        (updateSelectedSet ["a"] [VisItem.mk "a" 0, VisItem.mk "b" 1] ["__TOGGLE__"])
        [VisItem.mk "a" 0, VisItem.mk "b" 1] ["__TOGGLE__"] := by
  exact ⟨by decide, by decide⟩

/-- C2 witness: toggling over `[a]` with nothing selected adds the visible
item. -/
theorem c2_w :
    ("a" : String) ∈ updateSelectedSet [] [VisItem.mk "a" 0] ["__TOGGLE__"]
      ↔ ("a" : String) ∈ ([] : List String)
        ∨ ("a" : String) ∈ ([VisItem.mk "a" 0] : List VisItem).map VisItem.it :=
  (c2_toggle_block_inversion [] [VisItem.mk "a" 0] ["__TOGGLE__"]
    (by decide) (by decide) (by decide)).2.1 (by decide) "a"

/-- C3: when the submitted picks are not exactly the toggle entry alone, the
update removes every visible item from the selection state and adds exactly
the non-toggle submitted entries; hence the selection state restricted to the
visible subset afterwards equals exactly the set of non-toggle submitted
entries. -/
theorem c3_explicit_pick_replaces_visible (sel : List String) (vis : List VisItem)
    (r : List String)
    (hnot : ("__TOGGLE__" : String) ∈ r → r.filter (fun v => decide (v ≠ "__TOGGLE__")) ≠ [])
    (hvalid : pickValid vis r = true) :
    ∀ x, (x ∈ updateSelectedSet sel vis r
            ↔ (x ∈ sel ∧ x ∉ vis.map VisItem.it) ∨ (x ∈ r ∧ x ≠ "__TOGGLE__"))
      ∧ ((x ∈ updateSelectedSet sel vis r ∧ x ∈ vis.map VisItem.it)
            ↔ (x ∈ r ∧ x ≠ "__TOGGLE__")) := by
  intro x
  have hchar : x ∈ updateSelectedSet sel vis r
      ↔ (x ∈ sel ∧ x ∉ vis.map VisItem.it) ∨ (x ∈ r ∧ x ≠ "__TOGGLE__") := by
    by_cases hT : ("__TOGGLE__" : String) ∈ r
    · rw [upd_override hT (hnot hT), mem_foldl_add, mem_foldl_del]
      simp only [List.mem_filter, decide_eq_true_eq]
    · rw [upd_normal hT, mem_foldl_add, mem_foldl_del]
      constructor
      · rintro (h | h)
        · exact Or.inl h
        · exact Or.inr ⟨h, fun hx => hT (hx ▸ h)⟩
      · rintro (h | h)
        · exact Or.inl h
        · exact Or.inr h.1
  refine ⟨hchar, ?_, ?_⟩
  · rintro ⟨hmem, hvis⟩
    rcases hchar.mp hmem with h | h
    · exact absurd hvis h.2
    · exact h
  · intro h
    refine ⟨hchar.mpr (Or.inr h), ?_⟩
    rcases pickValid_iff.mp hvalid x h.1 with h1 | h1
    · exact absurd h1 h.2
    · exact h1

/-- C3 witness: submitting `["b"]` (no toggle) over the visible subset
`{a, b}` with prior state `{"a"}`. -/
theorem c3_w :
    ("b" : String) ∈ updateSelectedSet ["a"] [VisItem.mk "a" 0, VisItem.mk "b" 1] ["b"]
      ↔ (("b" : String) ∈ (["a"] : List String)
            ∧ ("b" : String) ∉ ([VisItem.mk "a" 0, VisItem.mk "b" 1] : List VisItem).map VisItem.it)
        ∨ (("b" : String) ∈ (["b"] : List String) ∧ ("b" : String) ≠ "__TOGGLE__") :=
  (c3_explicit_pick_replaces_visible ["a"] [VisItem.mk "a" 0, VisItem.mk "b" 1] ["b"]
    (by decide) (by decide) "b").1

/-- C4: a pick round leaves the selection-state membership of every display
string that does not match the round's filter unchanged, and every visible
item that is in the selection state is presented pre-checked. -/
theorem c4_frame_nonvisible_preserved (items : List String) (f : String)
    (sel : List String) (r : List String) (x : String)
    (hmat : matchesFilter f x = false)
    (hvalid : pickValid (visibleItems items f) r = true) :
    (x ∈ updateSelectedSet sel (visibleItems items f) r ↔ x ∈ sel)
    ∧ ∀ v ∈ visibleItems items f, v.it ∈ sel →
        Choice.mk v.it true ∈ mkChoices (visibleItems items f) sel := by
  constructor
  · have hx : x ∉ (visibleItems items f).map VisItem.it := not_visible_of_not_matches hmat
    by_cases hT : ("__TOGGLE__" : String) ∈ r
    · by_cases hrest : r.filter (fun v => decide (v ≠ "__TOGGLE__")) = []
      · by_cases hall : ∀ v ∈ visibleItems items f, v.it ∈ sel
        · rw [upd_toggle_all hT hrest hall, mem_foldl_del]
          exact ⟨fun h => h.1, fun h => ⟨h, hx⟩⟩
        · rw [upd_toggle_notall hT hrest hall, mem_foldl_addIt]
          constructor
          · rintro (h | h)
            · exact h
            · exact absurd h hx
          · exact fun h => Or.inl h
      · rw [upd_override hT hrest, mem_foldl_add, mem_foldl_del]
        constructor
        · rintro (h | h)
          · exact h.1
          · rcases List.mem_filter.mp h with ⟨hr, hne⟩
            rcases pickValid_iff.mp hvalid x hr with h1 | h1
            · exact absurd h1 (of_decide_eq_true hne)
            · exact absurd h1 hx
        · intro h
          exact Or.inl ⟨h, hx⟩
    · rw [upd_normal hT, mem_foldl_add, mem_foldl_del]
      constructor
      · rintro (h | h)
        · exact h.1
        · rcases pickValid_iff.mp hvalid x h with h1 | h1
          · exact absurd (h1 ▸ h) hT
          · exact absurd h1 hx
      · intro h
        exact Or.inl ⟨h, hx⟩
  · intro v hv hsel
    unfold mkChoices
    refine List.mem_cons_of_mem _ (List.mem_map.mpr ⟨v, hv, ?_⟩)
    simp [hsel]

/-- C4 witness: item `"b"` does not match filter `"a"`; its membership in the
prior state `{"b"}` survives a round that picks `"a"`. -/
theorem c4_w :
    ("b" : String) ∈ updateSelectedSet ["b"] (visibleItems ["a", "b"] "a") ["a"]
      ↔ ("b" : String) ∈ (["b"] : List String) :=
  (c4_frame_nonvisible_preserved ["a", "b"] "a" ["b"] ["a"] "b" (by decide) (by decide)).1

/-- C5: along any valid session (submitted picks drawn from the presented
choices), every member of the selection state is a display string of the
original item list — one step preserves the invariant, and at `:done` every
member resolves to a non-negative index, so the `i >= 0` guard discards
nothing. -/
theorem c5_selection_invariant (items : List String) (script : List Ev)
    (res : List Int) (selF : List String)
    (hvalid : scriptValid items script = true)
    (hrun : runScript items script = St.finished res (some selF)) :
    (∀ v ∈ selF, v ∈ items)
    ∧ doneIndices items selF = selF.map (fun v => jsIndexOf items v)
    ∧ res = selF.map (fun v => jsIndexOf items v)
    ∧ (∀ v ∈ selF, 0 ≤ jsIndexOf items v)
    ∧ (∀ (st : St) (e : Ev), SelInv items st → evOk st e = true →
        SelInv items (multiStep items st e)) := by
  have hinv : SelInv items (runScript items script) :=
    selInv_run items script initSt hvalid (fun v hv => absurd hv (List.not_mem_nil v))
  rw [hrun] at hinv
  have hsel : ∀ v ∈ selF, v ∈ items := hinv
  have hgood : GoodSt items (runScript items script) := goodSt_run items script initSt trivial
  rw [hrun] at hgood
  have hg2 : res = doneIndices items selF := hgood
  have hdone := doneIndices_eq_map hsel
  refine ⟨hsel, hdone, by rw [hg2, hdone], ?_, ?_⟩
  · intro v hv
    exact jsIndexOf_nonneg (hsel v hv)
  · intro st e h hok
    exact selInv_step items st e h hok

/-- C5 witness: a one-item valid session ending via `:done`. -/
theorem c5_w :
    doneIndices ["a"] ["a"] = (["a"] : List String).map (fun v => jsIndexOf ["a"] v) :=
  (c5_selection_invariant ["a"] [Ev.filt "", Ev.pick ["a"], Ev.filt ":done"] [0] ["a"]
    (by decide) (by decide)).2.1

/-- C6: the visible subset of a round is exactly the `(item, originalIndex)`
pairs, in original order, whose display string contains the filter query as a
case-insensitive substring (the empty query matching everything); in
particular query `"de"` against the two example workflow labels matches only
the first. -/
theorem c6_visible_subset :
    (∀ (items : List String) (filter : String),
      visibleItems items filter = visibleSpec items filter)
    ∧ visibleItems
        ["Deploy — .github/workflows/deploy.yml", "Test — .github/workflows/test.yml"] "de"
      = [VisItem.mk "Deploy — .github/workflows/deploy.yml" 0] := by
  constructor
  · intro items f
    unfold visibleItems visibleSpec
    by_cases hq : jsToLower f = ""
    · rw [if_pos hq, hq]
      symm
      rw [List.filter_eq_self]
      intro v _
      exact listHasSub_nil _
    · rw [if_neg hq]
  · decide

/-- C7 (code bug): in `runCLI` of `src/index.js`, an operator interrupt during
the fzf-backed ref selection resolves to an empty index list, but the ref
phase has no empty-result guard: `refIdx = refIdxs[0]` is undefined and the
session continues with an undefined selected ref instead of ending as
"nothing selected". -/
theorem c7_ref_abort_continues_undefined :
    fzfResolve ["main"] "" = []
    ∧ runCLIRefPhase ["main"] (some (fzfResolve ["main"] "")) 0
        = RefPhaseOut.continuedWith none := by
  exact ⟨by decide, by decide⟩

/-- C8: the dispatch loop processes the chosen workflows strictly
sequentially; each item's invocation outcome is recorded in order and a
failure (oracle `false`) on one item never removes or changes the invocations
of the others — exactly one invocation per chosen item, no retry. -/
theorem c8_sequential_best_effort (chosen : List String) (ref : String)
    (oracle : Option String → Bool) :
    dispatchWorkflows chosen ref oracle
      = chosen.map (fun w => DispatchEv.invoked (dispatchPathOf w) ref (oracle (dispatchPathOf w)))
    ∧ (dispatchWorkflows chosen ref oracle).length = chosen.length := by
  have hmap : dispatchWorkflows chosen ref oracle
      = chosen.map (fun w =>
          DispatchEv.invoked (dispatchPathOf w) ref (oracle (dispatchPathOf w))) := by
    induction chosen with
    | nil => rfl
    | cons w t ih => simp [dispatchWorkflows, ih]
  exact ⟨hmap, by rw [hmap, List.length_map]⟩

/-- C9 (amended): for a display string `"<name> — <path>"` in which the
separator occurs only at the inserted position — it occurs neither inside
`name ++ " —"` nor inside `path` — the derived path identifier equals the
record's `path`, and the run-workflow invocation receives that path with the
selected ref.  (The original claim's "including when the name contains the
separator" fails: see the counterexample.) -/
theorem c9_path_derivation (name path : String)
    (h1 : listHasSub sepL (name.data ++ [' ', '—']) = false)
    (h2 : listHasSub sepL path.data = false) :
    dispatchPathOf (workflowDisplay name path) = some path
    ∧ ∀ (ref : String) (oracle : Option String → Bool),
        dispatchWorkflows [workflowDisplay name path] ref oracle
          = [DispatchEv.invoked (some path) ref (oracle (some path))] := by
  have hdata : (workflowDisplay name path).data = name.data ++ sepL ++ path.data := by
    simp [workflowDisplay, sepL]
  have hpath : dispatchPathOf (workflowDisplay name path) = some path := by
    unfold dispatchPathOf
    rw [hdata, splitOnL_display _ _ h1 h2]
    rfl
  refine ⟨hpath, fun ref oracle => ?_⟩
  simp [dispatchWorkflows, hpath]

/-- C9 counterexample: a workflow named `"A — B"` with path `"c.yml"` has
display string `"A — B — c.yml"`, and the dispatch step derives `"B"` — a
fragment of the name — instead of the path. -/
theorem c9_cex :
    dispatchPathOf (workflowDisplay "A — B" "c.yml") = some "B"
    ∧ ("B" : String) ≠ "c.yml"
    ∧ dispatchWorkflows [workflowDisplay "A — B" "c.yml"] "main" (fun _ => true)
        = [DispatchEv.invoked (some "B") "main" true] := by
  exact ⟨by decide, by decide, by decide⟩

/-- C9 witness: a separator-free name and path. -/
theorem c9_w :
    dispatchPathOf (workflowDisplay "Deploy" ".github/workflows/deploy.yml")
      = some ".github/workflows/deploy.yml" :=
  (c9_path_derivation "Deploy" ".github/workflows/deploy.yml" (by decide) (by decide)).1

/-- C10: every index resolved by the fzf selector from any output text is in
range for the item list: lines with a non-numeric leading token, a
zero/negative one-based index, or an index beyond the list's end are
dropped. -/
theorem c10_fzf_indices_in_range (items : List String) (out : String) (i : Int)
    (hi : i ∈ fzfResolve items out) :
    0 ≤ i ∧ i < (items.length : Int) := by
  unfold fzfResolve at hi
  by_cases h : jsTrim out = ""
  · rw [if_pos h] at hi
    exact absurd hi (List.not_mem_nil _)
  · rw [if_neg h] at hi
    rcases List.mem_filterMap.mp hi with ⟨oi, _, hoi⟩
    match oi with
    | none => exact absurd hoi (by simp)
    | some j =>
      by_cases hj : 0 ≤ j ∧ j < (items.length : Int)
      · have hoi2 : (if 0 ≤ j ∧ j < (items.length : Int) then some j else none) = some i := hoi
        rw [if_pos hj] at hoi2
        injection hoi2 with hji
        rw [← hji]
        exact hj
      · have hoi2 : (if 0 ≤ j ∧ j < (items.length : Int) then some j else none) = some i := hoi
        rw [if_neg hj] at hoi2
        exact absurd hoi2 (by simp)

/-- C10 witness: fzf output `"2\tb"` against a two-item list resolves to the
in-range index `1`. -/
theorem c10_w :
    0 ≤ (1 : Int) ∧ (1 : Int) < ((["a", "b"] : List String).length : Int) :=
  c10_fzf_indices_in_range ["a", "b"] "2\tb" 1 (by decide)

end WorkflowDispatcher
